import Mathlib

/-!
Verification of the altermagnetism-detection core of `amcheckcpp`.

The development shallowly embeds the core routines of `src/amcheck.cpp`
(`bring_in_cell`, `check_altermagnetism_orbit`, `is_altermagnet`, and the
candidate decoding / work partitioning of `search_all_spin_configurations`)
into Lean.  C++ `double` arithmetic is modelled by `ℚ`; `std::fmod(x, 1.0)`
is `x - trunc x`; the comparison `v.norm() < tol` (resp. `> tol`) of a
Euclidean norm against the tolerance is expressed without square roots as
`normSq v < tol * tol` (resp. `>`), which is equivalent for the nonnegative
tolerances the program uses; C++ exceptions become `Except AmError`.
Imperative marker arrays that are only ever set to 1 are embedded as the
predicate "some pair of indices triggers the mark", which is the net effect
of the corresponding loops.
-/

namespace amcheck

/-- Spin label of an atom, `SpinType` in `amcheck.h`. -/
inductive SpinType where
  | UP
  | DOWN
  | NONE
deriving DecidableEq, Repr

/-- A 3-vector of (rational-valued) fractional coordinates, `Eigen::Vector3d`. -/
structure Vec3 where
  x : ℚ
  y : ℚ
  z : ℚ
deriving DecidableEq, Repr

/-- The zero vector. -/
def vzero : Vec3 := ⟨0, 0, 0⟩

instance : Inhabited Vec3 := ⟨vzero⟩

/-- Componentwise vector addition. -/
def Vec3.add (a b : Vec3) : Vec3 := ⟨a.x + b.x, a.y + b.y, a.z + b.z⟩

/-- Componentwise vector subtraction. -/
def Vec3.sub (a b : Vec3) : Vec3 := ⟨a.x - b.x, a.y - b.y, a.z - b.z⟩

instance : Add Vec3 := ⟨Vec3.add⟩
instance : Sub Vec3 := ⟨Vec3.sub⟩

/-- A 3×3 matrix given by its rows, `Eigen::Matrix3d`. -/
structure Mat3 where
  r0 : Vec3
  r1 : Vec3
  r2 : Vec3
deriving DecidableEq, Repr

/-- Matrix–vector product `R * v`. -/
def Mat3.mulVec (M : Mat3) (v : Vec3) : Vec3 :=
  ⟨M.r0.x * v.x + M.r0.y * v.y + M.r0.z * v.z,
   M.r1.x * v.x + M.r1.y * v.y + M.r1.z * v.z,
   M.r2.x * v.x + M.r2.y * v.y + M.r2.z * v.z⟩

/-- Matrix trace `R.trace()`. -/
def Mat3.trace (M : Mat3) : ℚ := M.r0.x + M.r1.y + M.r2.z

/-- A symmetry operation: a rotation matrix and a translation vector
(`using SymmetryOperation = std::pair<Matrix3d, Vector3d>`). -/
abbrev SymmetryOperation := Mat3 × Vec3

/-- Squared Euclidean norm of a vector. -/
def normSq (v : Vec3) : ℚ := v.x * v.x + v.y * v.y + v.z * v.z

/-- `v.norm() < tol`, written without square roots (equivalent for `0 ≤ tol`). -/
def normLt (v : Vec3) (tol : ℚ) : Bool := decide (normSq v < tol * tol)

/-- `v.norm() > tol`, written without square roots (equivalent for `0 ≤ tol`). -/
def normGt (v : Vec3) (tol : ℚ) : Bool := decide (normSq v > tol * tol)

/-- Truncation toward zero, the rounding used by C++ `std::fmod`. -/
def qtrunc (x : ℚ) : ℤ := if x < 0 then ⌈x⌉ else ⌊x⌋

/-- `std::fmod(x, 1.0)`: the remainder `x - trunc x`, with the sign of `x`. -/
def fmodOne (x : ℚ) : ℚ := x - qtrunc x

/-- The modulo-1 reduction of one coordinate: `fmod` into `(-1, 1)` followed
by adding 1 to negative remainders, landing in `[0, 1)`. -/
def wrapBase (x : ℚ) : ℚ :=
  let r0 := fmodOne x
  if r0 < 0 then r0 + 1 else r0

/-- One coordinate of `bring_in_cell`: reduce modulo 1 into `[0,1)`, then snap
values within `tol` of 1.0 to `1.0 - value`. -/
def wrapCoord (x tol : ℚ) : ℚ :=
  if |1 - wrapBase x| < tol then 1 - wrapBase x else wrapBase x

/-- `bring_in_cell(r, tol)` from `amcheck.cpp`, applied componentwise. -/
def bring_in_cell (r : Vec3) (tol : ℚ) : Vec3 :=
  ⟨wrapCoord r.x tol, wrapCoord r.y tol, wrapCoord r.z tol⟩

/-- The error values thrown by the classifiers
(`std::invalid_argument` / `std::runtime_error` in the C++ source). -/
inductive AmError where
  | invalidInput
  | spinImbalance (nUp nDown : ℕ)
  | inconsistentMagneticDescription
deriving DecidableEq, Repr

/-- The opposite-spin test used in every pair loop of
`check_altermagnetism_orbit`. -/
def oppositeSpins (a b : SpinType) : Bool :=
  (a == .UP && b == .DOWN) || (a == .DOWN && b == .UP)

/-- Whether a spin label is magnetic (UP or DOWN). -/
def isMagneticSpin (s : SpinType) : Bool := s == .UP || s == .DOWN

/-- `symop_is_present` for atom `i`: some opposite-spin atom `j` satisfies
`‖bring_in_cell(R*p_i + t - p_j)‖ < tol`. -/
def symopMapsAtom (positions : List Vec3) (spins : List SpinType) (tol : ℚ)
    (op : SymmetryOperation) (i : ℕ) : Bool :=
  (List.range positions.length).any fun j =>
    oppositeSpins (spins.getD i .NONE) (spins.getD j .NONE) &&
      normLt (bring_in_cell
        (op.1.mulVec (positions.getD i vzero) + op.2 - positions.getD j vzero) tol) tol

/-- The magnetic filter of `check_altermagnetism_orbit`: the operation must map
every magnetic atom onto some opposite-spin atom (an AND over all magnetic `i`). -/
def isMagneticSymop (positions : List Vec3) (spins : List SpinType) (tol : ℚ)
    (op : SymmetryOperation) : Bool :=
  (List.range positions.length).all fun i =>
    !(isMagneticSpin (spins.getD i .NONE)) || symopMapsAtom positions spins tol op i

/-- `magn_symops`: the symmetry operations surviving the magnetic filter. -/
def magnSymops (symops : List SymmetryOperation) (positions : List Vec3)
    (spins : List SpinType) (tol : ℚ) : List SymmetryOperation :=
  symops.filter (isMagneticSymop positions spins tol)

/-- `N_magnetic_atoms = 2 * count(spins, UP)`. -/
def nMagneticAtoms (spins : List SpinType) : ℕ := 2 * spins.count .UP

/-- The midpoint `(p_i + p_j) / 2` of a pair of positions. -/
def midpoint (a b : Vec3) : Vec3 := ⟨(a.x + b.x) / 2, (a.y + b.y) / 2, (a.z + b.z) / 2⟩

/-- One operation relates the ordered pair `(p_i, p_j)`:
`‖bring_in_cell(R*p_i + t - p_j)‖ < tol`. -/
def pairSymOp (tol : ℚ) (pa pb : Vec3) (op : SymmetryOperation) : Bool :=
  normLt (bring_in_cell (op.1.mulVec pa + op.2 - pb) tol) tol

/-- One operation is an inversion fixing the midpoint of the pair:
`|trace R + 3| < tol` and the transformed midpoint wraps back onto itself. -/
def pairInvOp (tol : ℚ) (pa pb : Vec3) (op : SymmetryOperation) : Bool :=
  decide (|op.1.trace + 3| < tol) &&
    normLt (bring_in_cell (op.1.mulVec (midpoint pa pb) + op.2 - midpoint pa pb) tol) tol

/-- One operation is a pure translation carrying `p_i` onto `p_j`:
`|trace R - 3| < tol`, `‖t‖ > tol`, and `‖bring_in_cell(p_i + t - p_j)‖ < tol`. -/
def pairTransOp (tol : ℚ) (pa pb : Vec3) (op : SymmetryOperation) : Bool :=
  decide (|op.1.trace - 3| < tol) && normGt op.2 tol &&
    normLt (bring_in_cell (pa + op.2 - pb) tol) tol

/-- Atom `k` is marked in `is_in_sym_related_pair`: some opposite-spin pair
`i < j` with `k ∈ {i, j}` is related by some surviving magnetic operation.
The imperative loop only ever sets entries of the array to 1, so its net
effect is exactly this predicate. -/
def symMarked (ms : List SymmetryOperation) (positions : List Vec3)
    (spins : List SpinType) (tol : ℚ) (k : ℕ) : Bool :=
  (List.range positions.length).any fun i =>
    (List.range positions.length).any fun j =>
      decide (i < j) && oppositeSpins (spins.getD i .NONE) (spins.getD j .NONE) &&
        (k == i || k == j) &&
        ms.any (pairSymOp tol (positions.getD i vzero) (positions.getD j vzero))

/-- Atom `k` is marked in `is_in_IT_related_pair`: some opposite-spin pair
`i < j` with `k ∈ {i, j}` is related by inversion or pure translation. -/
def itMarked (ms : List SymmetryOperation) (positions : List Vec3)
    (spins : List SpinType) (tol : ℚ) (k : ℕ) : Bool :=
  (List.range positions.length).any fun i =>
    (List.range positions.length).any fun j =>
      decide (i < j) && oppositeSpins (spins.getD i .NONE) (spins.getD j .NONE) &&
        (k == i || k == j) &&
        ms.any (fun op =>
          pairInvOp tol (positions.getD i vzero) (positions.getD j vzero) op ||
          pairTransOp tol (positions.getD i vzero) (positions.getD j vzero) op)

/-- `sum_sym`: the number of atoms marked as symmetry-related (each atom
contributes at most 1 however many pairs or operations triggered it). -/
def sumSym (ms : List SymmetryOperation) (positions : List Vec3)
    (spins : List SpinType) (tol : ℚ) : ℕ :=
  (List.range positions.length).countP (symMarked ms positions spins tol)

/-- `sum_IT`: the number of atoms marked as inversion/translation-related. -/
def sumIT (ms : List SymmetryOperation) (positions : List Vec3)
    (spins : List SpinType) (tol : ℚ) : ℕ :=
  (List.range positions.length).countP (itMarked ms positions spins tol)

/-- `check_altermagnetism_orbit` from `amcheck.cpp` (the `verbose`/`silent`
flags only control printing and are omitted). -/
def check_altermagnetism_orbit (symops : List SymmetryOperation)
    (positions : List Vec3) (spins : List SpinType) (tol : ℚ) :
    Except AmError Bool :=
  if positions.length = 1 then .ok false
  else if positions.length ≠ spins.length then .error .invalidInput
  else
    let ms := magnSymops symops positions spins tol
    if ms = [] then .ok false
    else
      let nmag : ℚ := (nMagneticAtoms spins : ℚ)
      let sSym : ℚ := (sumSym ms positions spins tol : ℚ)
      let sIT : ℚ := (sumIT ms positions spins tol : ℚ)
      let isLuttinger : Bool := decide (|sSym - nmag| > tol)
      let isAlter : Bool := decide (|sIT - nmag| > tol)
      .ok (isAlter && !isLuttinger)

/-- The indices of the atoms belonging to orbit `u` (`atom_ids`). -/
def atomIdsOf (equiv_atoms : List ℤ) (u : ℤ) : List ℕ :=
  (List.range equiv_atoms.length).filter fun i => equiv_atoms.getD i 0 == u

/-- The spins of the atoms of orbit `u` (`orbit_spins`). -/
def orbitSpinsOf (equiv_atoms : List ℤ) (spins : List SpinType) (u : ℤ) :
    List SpinType :=
  (atomIdsOf equiv_atoms u).map fun i => spins.getD i .NONE

/-- The positions of the atoms of orbit `u` (`orbit_positions`). -/
def orbitPositionsOf (equiv_atoms : List ℤ) (atom_positions : List Vec3) (u : ℤ) :
    List Vec3 :=
  (atomIdsOf equiv_atoms u).map fun i => atom_positions.getD i vzero

/-- `unique_orbits`: the orbit identifiers, sorted with duplicates removed. -/
def uniqueOrbits (equiv_atoms : List ℤ) : List ℤ :=
  (equiv_atoms.insertionSort (· ≤ ·)).dedup

/-- The loop state of `is_altermagnet`: the running OR of orbit results,
whether any orbit was evaluated, and whether all orbits seen so far are
singletons. -/
structure LoopState where
  altermagnet : Bool
  checkPerformed : Bool
  allMultOne : Bool
deriving DecidableEq, Repr

/-- One iteration of the orbit loop of `is_altermagnet`:
`all_orbits_multiplicity_one` is updated first, size-1 orbits and all-NONE
orbits are skipped, imbalanced orbits throw, and otherwise the orbit
classifier's verdict is OR-ed into the running result. -/
def orbitStep (symops : List SymmetryOperation) (atom_positions : List Vec3)
    (equiv_atoms : List ℤ) (spins : List SpinType) (tol : ℚ)
    (st : LoopState) (u : ℤ) : Except AmError LoopState :=
  if (orbitPositionsOf equiv_atoms atom_positions u).length = 1 then
    .ok { st with allMultOne := st.allMultOne &&
      ((orbitPositionsOf equiv_atoms atom_positions u).length == 1) }
  else if (orbitSpinsOf equiv_atoms spins u).all (· == .NONE) then
    .ok { st with allMultOne := st.allMultOne &&
      ((orbitPositionsOf equiv_atoms atom_positions u).length == 1) }
  else if (orbitSpinsOf equiv_atoms spins u).count .UP ≠
      (orbitSpinsOf equiv_atoms spins u).count .DOWN then
    .error (.spinImbalance ((orbitSpinsOf equiv_atoms spins u).count .UP)
      ((orbitSpinsOf equiv_atoms spins u).count .DOWN))
  else
    match check_altermagnetism_orbit symops
        (orbitPositionsOf equiv_atoms atom_positions u)
        (orbitSpinsOf equiv_atoms spins u) tol with
    | .error e => .error e
    | .ok b => .ok ⟨st.altermagnet || b, true,
        st.allMultOne && ((orbitPositionsOf equiv_atoms atom_positions u).length == 1)⟩

/-- `is_altermagnet` from `amcheck.cpp` (the structure classifier); the
`chemical_symbols` argument is only used for printing in the source and is
unused here. -/
def is_altermagnet (symops : List SymmetryOperation) (atom_positions : List Vec3)
    (equiv_atoms : List ℤ) (_chemical_symbols : List String)
    (spins : List SpinType) (tol : ℚ) : Except AmError Bool :=
  match (uniqueOrbits equiv_atoms).foldlM
      (orbitStep symops atom_positions equiv_atoms spins tol)
      ⟨false, false, true⟩ with
  | .error e => .error e
  | .ok st =>
    if ¬ st.checkPerformed then
      if st.allMultOne then .ok false
      else .error .inconsistentMagneticDescription
    else .ok st.altermagnet

/-- The spin-imbalance situation of the structure classifier: an orbit with at
least two members, not all of them NONE, whose UP and DOWN counts differ. -/
def badOrbit (equiv_atoms : List ℤ) (spins : List SpinType) (u : ℤ) : Prop :=
  2 ≤ (atomIdsOf equiv_atoms u).length ∧
    ¬ ((orbitSpinsOf equiv_atoms spins u).all (· == .NONE) = true) ∧
    (orbitSpinsOf equiv_atoms spins u).count .UP ≠
      (orbitSpinsOf equiv_atoms spins u).count .DOWN

instance (equiv_atoms : List ℤ) (spins : List SpinType) (u : ℤ) :
    Decidable (badOrbit equiv_atoms spins u) := by
  unfold badOrbit; infer_instance

/-- The candidate-decoding loop of `search_all_spin_configurations`: walk the
magnetic indices, assigning UP for remainder bit 0 and DOWN for bit 1 while
halving `temp_id`, exactly as the C++ loop does. -/
def decodeSpinsAux (tempId : ℕ) : List ℕ → List SpinType → List SpinType
  | [], spins => spins
  | idx :: rest, spins =>
      decodeSpinsAux (tempId / 2) rest
        (spins.set idx (if tempId % 2 = 0 then .UP else .DOWN))

/-- Decode candidate id `k` into a spin assignment over `numAtoms` atoms:
all atoms start as NONE and the magnetic atoms receive the bits of `k`. -/
def decodeSpins (numAtoms : ℕ) (magneticIndices : List ℕ) (k : ℕ) :
    List SpinType :=
  decodeSpinsAux k magneticIndices (List.replicate numAtoms .NONE)

/-- Per-candidate evaluation of the search engine: decode the candidate and
run the structure classifier on it. -/
def evalCandidate (symops : List SymmetryOperation) (atom_positions : List Vec3)
    (equiv_atoms : List ℤ) (chemical_symbols : List String)
    (numAtoms : ℕ) (magneticIndices : List ℕ) (tol : ℚ) (k : ℕ) :
    Except AmError Bool :=
  is_altermagnet symops atom_positions equiv_atoms chemical_symbols
    (decodeSpins numAtoms magneticIndices k) tol

/-- `start_config` for worker `t`: `t * configs_per_thread` plus the
remainder adjustment of the launcher loop. -/
def workerStart (total nthreads t : ℕ) : ℕ :=
  if t < total % nthreads then t * (total / nthreads) + t
  else t * (total / nthreads) + total % nthreads

/-- `end_config` for worker `t`: `(t + 1) * configs_per_thread` plus the same
remainder adjustment. -/
def workerEnd (total nthreads t : ℕ) : ℕ :=
  if t < total % nthreads then (t + 1) * (total / nthreads) + (t + 1)
  else (t + 1) * (total / nthreads) + total % nthreads

/-- The candidate ids assigned to worker `t`:
`[start_config, end_config)` as a list. -/
def workerIds (total nthreads t : ℕ) : List ℕ :=
  List.range' (workerStart total nthreads t)
    (workerEnd total nthreads t - workerStart total nthreads t)

/-- One iteration of a worker's loop body: count the candidate
(`completed_configs++` happens both in the catch branch and in the normal
path) and append its id to the local results when it is altermagnetic. -/
def workerFold (eval : ℕ → Except AmError Bool) (acc : ℕ × List ℕ) (k : ℕ) :
    ℕ × List ℕ :=
  match eval k with
  | .error _ => (acc.1 + 1, acc.2)
  | .ok b => (acc.1 + 1, if b then acc.2 ++ [k] else acc.2)

/-- One worker of the exhaustive search: evaluate every id of its range,
counting each candidate exactly once and accumulating the ids found
altermagnetic in `local_results`. -/
def runWorker (eval : ℕ → Except AmError Bool) (ids : List ℕ) : ℕ × List ℕ :=
  ids.foldl (workerFold eval) (0, [])

/-- UP ↔ DOWN spin flip, leaving NONE unchanged. -/
def flipSpin : SpinType → SpinType
  | .UP => .DOWN
  | .DOWN => .UP
  | .NONE => .NONE

/-! ## Geometry lemmas -/

theorem wrapBase_nonneg (x : ℚ) : 0 ≤ wrapBase x := by
  unfold wrapBase fmodOne qtrunc
  by_cases hx : x < 0
  · simp only [hx, if_true]
    have h1 : x ≤ (⌈x⌉ : ℚ) := Int.le_ceil x
    have h2 : (⌈x⌉ : ℚ) < x + 1 := Int.ceil_lt_add_one x
    split <;> linarith
  · simp only [hx, if_false]
    have h1 : (⌊x⌋ : ℚ) ≤ x := Int.floor_le x
    split <;> linarith

theorem wrapBase_lt_one (x : ℚ) : wrapBase x < 1 := by
  unfold wrapBase fmodOne qtrunc
  by_cases hx : x < 0
  · simp only [hx, if_true]
    have h1 : x ≤ (⌈x⌉ : ℚ) := Int.le_ceil x
    split <;> linarith
  · simp only [hx, if_false]
    have h2 : x < (⌊x⌋ : ℚ) + 1 := Int.lt_floor_add_one x
    split <;> linarith

theorem wrapCoord_bounds (x tol : ℚ) (h0 : 0 < tol) (h1 : tol < 1 / 2) :
    0 ≤ wrapCoord x tol ∧ wrapCoord x tol ≤ 1 - tol := by
  have hb0 := wrapBase_nonneg x
  have hb1 := wrapBase_lt_one x
  have habs : |1 - wrapBase x| = 1 - wrapBase x := abs_of_pos (by linarith)
  unfold wrapCoord
  rw [habs]
  split <;> constructor <;> linarith

theorem wrapCoord_fixed (y tol : ℚ) (h0 : 0 < tol)
    (hy0 : 0 ≤ y) (hy1 : y ≤ 1 - tol) : wrapCoord y tol = y := by
  have hlt : y < 1 := by linarith
  have hfix : wrapBase y = y := by
    unfold wrapBase fmodOne qtrunc
    have hny : ¬ y < 0 := not_lt.mpr hy0
    have hfl : ⌊y⌋ = 0 := Int.floor_eq_zero_iff.mpr ⟨hy0, hlt⟩
    simp [hny, hfl]
  unfold wrapCoord
  rw [hfix]
  have habs : |1 - y| = 1 - y := abs_of_pos (by linarith)
  rw [habs, if_neg (by linarith)]

/-- C9: `bring_in_cell` is idempotent for any tolerance in `(0, 1/2)` and its
output components all lie in `[0, 1)`. -/
theorem bring_in_cell_idem_and_range (v : Vec3) (tol : ℚ)
    (h0 : 0 < tol) (h1 : tol < 1 / 2) :
    bring_in_cell (bring_in_cell v tol) tol = bring_in_cell v tol ∧
    (0 ≤ (bring_in_cell v tol).x ∧ (bring_in_cell v tol).x < 1) ∧
    (0 ≤ (bring_in_cell v tol).y ∧ (bring_in_cell v tol).y < 1) ∧
    (0 ≤ (bring_in_cell v tol).z ∧ (bring_in_cell v tol).z < 1) := by
  obtain ⟨hx0, hx1⟩ := wrapCoord_bounds v.x tol h0 h1
  obtain ⟨hy0, hy1⟩ := wrapCoord_bounds v.y tol h0 h1
  obtain ⟨hz0, hz1⟩ := wrapCoord_bounds v.z tol h0 h1
  simp only [bring_in_cell]
  refine ⟨?_, ⟨hx0, by linarith⟩, ⟨hy0, by linarith⟩, ⟨hz0, by linarith⟩⟩
  rw [wrapCoord_fixed _ tol h0 hx0 hx1, wrapCoord_fixed _ tol h0 hy0 hy1,
    wrapCoord_fixed _ tol h0 hz0 hz1]

/-- Witness for C9 at the concrete vector `(3/2, -1/4, 999/1000)` with
tolerance `1/100`. -/
theorem bring_in_cell_idem_and_range_witness :
    (0 < (1 : ℚ) / 100) ∧ ((1 : ℚ) / 100 < 1 / 2) ∧
    (bring_in_cell (bring_in_cell ⟨3/2, -1/4, 999/1000⟩ (1/100)) (1/100) =
        bring_in_cell ⟨3/2, -1/4, 999/1000⟩ (1/100) ∧
      (0 ≤ (bring_in_cell ⟨3/2, -1/4, 999/1000⟩ (1/100)).x ∧
        (bring_in_cell ⟨3/2, -1/4, 999/1000⟩ (1/100)).x < 1) ∧
      (0 ≤ (bring_in_cell ⟨3/2, -1/4, 999/1000⟩ (1/100)).y ∧
        (bring_in_cell ⟨3/2, -1/4, 999/1000⟩ (1/100)).y < 1) ∧
      (0 ≤ (bring_in_cell ⟨3/2, -1/4, 999/1000⟩ (1/100)).z ∧
        (bring_in_cell ⟨3/2, -1/4, 999/1000⟩ (1/100)).z < 1)) :=
  ⟨by norm_num, by norm_num,
    bring_in_cell_idem_and_range ⟨3/2, -1/4, 999/1000⟩ (1/100)
      (by norm_num) (by norm_num)⟩

/-! ## Orbit classifier: size-1 orbits and the length precondition -/

/-- C3: an orbit consisting of exactly one position is never altermagnetic,
whatever the operations, spins and tolerance. -/
theorem orbit_singleton_false (symops : List SymmetryOperation) (v : Vec3)
    (spins : List SpinType) (tol : ℚ) :
    check_altermagnetism_orbit symops [v] spins tol = .ok false := by
  simp [check_altermagnetism_orbit]

/-- Counterexample to C4 as stated: for a single position and an empty spin
list the lengths mismatch, yet the size-1 early return fires first and the
function returns `.ok false` instead of an invalid-input error. -/
theorem orbit_mismatch_counterexample :
    ([vzero].length ≠ ([] : List SpinType).length) ∧
    check_altermagnetism_orbit [] [vzero] [] 0 = .ok false :=
  ⟨by decide, rfl⟩

/-- C4 (amended): when the positions list does not have exactly one element,
a length mismatch between positions and spins yields the invalid-input
error. -/
theorem orbit_mismatch_error (symops : List SymmetryOperation)
    (positions : List Vec3) (spins : List SpinType) (tol : ℚ)
    (h1 : positions.length ≠ 1) (h2 : positions.length ≠ spins.length) :
    check_altermagnetism_orbit symops positions spins tol =
      .error .invalidInput := by
  unfold check_altermagnetism_orbit
  rw [if_neg h1, if_pos h2]

/-- Witness for the amended C4: empty positions against one spin. -/
theorem orbit_mismatch_error_witness :
    (([] : List Vec3).length ≠ 1) ∧
    (([] : List Vec3).length ≠ [SpinType.UP].length) ∧
    check_altermagnetism_orbit [] [] [SpinType.UP] 0 = .error .invalidInput :=
  ⟨by decide, by decide,
    orbit_mismatch_error [] [] [SpinType.UP] 0 (by decide) (by decide)⟩

/-! ## Orbit classifier: the aggregation step -/

theorem sumSym_le_length (ms : List SymmetryOperation) (positions : List Vec3)
    (spins : List SpinType) (tol : ℚ) :
    sumSym ms positions spins tol ≤ positions.length := by
  have h := List.countP_le_length (symMarked ms positions spins tol)
    (l := List.range positions.length)
  simpa [sumSym, List.length_range] using h

theorem sumIT_le_length (ms : List SymmetryOperation) (positions : List Vec3)
    (spins : List SpinType) (tol : ℚ) :
    sumIT ms positions spins tol ≤ positions.length := by
  have h := List.countP_le_length (itMarked ms positions spins tol)
    (l := List.range positions.length)
  simpa [sumIT, List.length_range] using h

/-- C1: for an orbit with equal-length inputs, more than one atom and at least
one surviving magnetic symmetry operation, the classifier answers true exactly
when the symmetry-related marker total is within tolerance of
`N = 2 · #UP` while the inversion/translation marker total is not; the totals
count marked atoms, so each atom contributes at most 1 to each. -/
theorem orbit_true_iff_counts (symops : List SymmetryOperation)
    (positions : List Vec3) (spins : List SpinType) (tol : ℚ)
    (hlen : positions.length = spins.length)
    (hgt : 1 < positions.length)
    (hms : magnSymops symops positions spins tol ≠ []) :
    (check_altermagnetism_orbit symops positions spins tol = .ok true ↔
      (|(sumSym (magnSymops symops positions spins tol) positions spins tol : ℚ) -
          (nMagneticAtoms spins : ℚ)| ≤ tol ∧
        |(sumIT (magnSymops symops positions spins tol) positions spins tol : ℚ) -
          (nMagneticAtoms spins : ℚ)| > tol)) ∧
    sumSym (magnSymops symops positions spins tol) positions spins tol ≤
      positions.length ∧
    sumIT (magnSymops symops positions spins tol) positions spins tol ≤
      positions.length := by
  refine ⟨?_, sumSym_le_length _ _ _ _, sumIT_le_length _ _ _ _⟩
  unfold check_altermagnetism_orbit
  rw [if_neg (by omega), if_neg (not_not_intro hlen), if_neg hms]
  simp only [Except.ok.injEq, Bool.and_eq_true, Bool.not_eq_true',
    decide_eq_true_iff, decide_eq_false_iff_not, not_lt]
  constructor
  · rintro ⟨ha, hb⟩; exact ⟨hb, ha⟩
  · rintro ⟨ha, hb⟩; exact ⟨hb, ha⟩

/-- Witness for C1: two coincident atoms with opposite spins and the identity
operation; the orbit is altermagnetic and the marker totals agree. -/
theorem orbit_true_iff_counts_witness :
    ([vzero, vzero].length = [SpinType.UP, SpinType.DOWN].length) ∧
    (1 < [vzero, vzero].length) ∧
    (magnSymops [(⟨⟨1,0,0⟩, ⟨0,1,0⟩, ⟨0,0,1⟩⟩, vzero)] [vzero, vzero]
      [SpinType.UP, SpinType.DOWN] 1 ≠ []) ∧
    ((check_altermagnetism_orbit [(⟨⟨1,0,0⟩, ⟨0,1,0⟩, ⟨0,0,1⟩⟩, vzero)]
        [vzero, vzero] [SpinType.UP, SpinType.DOWN] 1 = .ok true ↔
      (|(sumSym (magnSymops [(⟨⟨1,0,0⟩, ⟨0,1,0⟩, ⟨0,0,1⟩⟩, vzero)] [vzero, vzero]
            [SpinType.UP, SpinType.DOWN] 1) [vzero, vzero]
            [SpinType.UP, SpinType.DOWN] 1 : ℚ) -
          (nMagneticAtoms [SpinType.UP, SpinType.DOWN] : ℚ)| ≤ 1 ∧
        |(sumIT (magnSymops [(⟨⟨1,0,0⟩, ⟨0,1,0⟩, ⟨0,0,1⟩⟩, vzero)] [vzero, vzero]
            [SpinType.UP, SpinType.DOWN] 1) [vzero, vzero]
            [SpinType.UP, SpinType.DOWN] 1 : ℚ) -
          (nMagneticAtoms [SpinType.UP, SpinType.DOWN] : ℚ)| > 1)) ∧
      sumSym (magnSymops [(⟨⟨1,0,0⟩, ⟨0,1,0⟩, ⟨0,0,1⟩⟩, vzero)] [vzero, vzero]
          [SpinType.UP, SpinType.DOWN] 1) [vzero, vzero]
          [SpinType.UP, SpinType.DOWN] 1 ≤ [vzero, vzero].length ∧
      sumIT (magnSymops [(⟨⟨1,0,0⟩, ⟨0,1,0⟩, ⟨0,0,1⟩⟩, vzero)] [vzero, vzero]
          [SpinType.UP, SpinType.DOWN] 1) [vzero, vzero]
          [SpinType.UP, SpinType.DOWN] 1 ≤ [vzero, vzero].length) := by
  have hms : magnSymops [(⟨⟨1,0,0⟩, ⟨0,1,0⟩, ⟨0,0,1⟩⟩, vzero)] [vzero, vzero]
      [SpinType.UP, SpinType.DOWN] 1 =
        [(⟨⟨1,0,0⟩, ⟨0,1,0⟩, ⟨0,0,1⟩⟩, vzero)] := by
    with_unfolding_all rfl
  refine ⟨rfl, by decide, by rw [hms]; exact List.cons_ne_nil _ _, ?_⟩
  exact orbit_true_iff_counts _ _ _ _ rfl (by decide)
    (by rw [hms]; exact List.cons_ne_nil _ _)

/-- C2: with equal-length inputs, if no operation survives the magnetic
filter, or the symmetry-related marker total differs from `N` by more than
the tolerance, the orbit is classified false regardless of the
inversion/translation data. -/
theorem orbit_luttinger_false (symops : List SymmetryOperation)
    (positions : List Vec3) (spins : List SpinType) (tol : ℚ)
    (hlen : positions.length = spins.length)
    (hcond : magnSymops symops positions spins tol = [] ∨
      |(sumSym (magnSymops symops positions spins tol) positions spins tol : ℚ) -
          (nMagneticAtoms spins : ℚ)| > tol) :
    check_altermagnetism_orbit symops positions spins tol = .ok false := by
  unfold check_altermagnetism_orbit
  by_cases h1 : positions.length = 1
  · rw [if_pos h1]
  · rw [if_neg h1, if_neg (not_not_intro hlen)]
    rcases hcond with h | h
    · rw [if_pos h]
    · by_cases hms : magnSymops symops positions spins tol = []
      · rw [if_pos hms]
      · rw [if_neg hms]
        simp [h]

/-- Witness for C2: two atoms with opposite spins and no symmetry operation
at all, so the magnetic filter leaves nothing. -/
theorem orbit_luttinger_false_witness :
    ([vzero, vzero].length = [SpinType.UP, SpinType.DOWN].length) ∧
    (magnSymops [] [vzero, vzero] [SpinType.UP, SpinType.DOWN] 1 = [] ∨
      |(sumSym (magnSymops [] [vzero, vzero] [SpinType.UP, SpinType.DOWN] 1)
          [vzero, vzero] [SpinType.UP, SpinType.DOWN] 1 : ℚ) -
        (nMagneticAtoms [SpinType.UP, SpinType.DOWN] : ℚ)| > 1) ∧
    check_altermagnetism_orbit [] [vzero, vzero] [SpinType.UP, SpinType.DOWN] 1 =
      .ok false :=
  ⟨rfl, Or.inl rfl,
    orbit_luttinger_false [] [vzero, vzero] [SpinType.UP, SpinType.DOWN] 1
      rfl (Or.inl rfl)⟩

/-! ## Global spin-flip invariance of the orbit classifier -/

theorem list_any_congr {α : Type} {p q : α → Bool} :
    ∀ {l : List α}, (∀ a ∈ l, p a = q a) → l.any p = l.any q
  | [], _ => rfl
  | a :: l, h => by
    rw [List.any_cons, List.any_cons, h a (List.mem_cons_self a l),
      list_any_congr fun b hb => h b (List.mem_cons_of_mem a hb)]

theorem list_all_congr {α : Type} {p q : α → Bool} :
    ∀ {l : List α}, (∀ a ∈ l, p a = q a) → l.all p = l.all q
  | [], _ => rfl
  | a :: l, h => by
    rw [List.all_cons, List.all_cons, h a (List.mem_cons_self a l),
      list_all_congr fun b hb => h b (List.mem_cons_of_mem a hb)]

theorem getD_map_flip (spins : List SpinType) (i : ℕ) :
    (spins.map flipSpin).getD i .NONE = flipSpin (spins.getD i .NONE) := by
  rw [List.getD_eq_getElem?_getD, List.getD_eq_getElem?_getD, List.getElem?_map]
  cases spins[i]? <;> rfl

theorem oppositeSpins_flip (a b : SpinType) :
    oppositeSpins (flipSpin a) (flipSpin b) = oppositeSpins a b := by
  cases a <;> cases b <;> rfl

theorem isMagneticSpin_flip (a : SpinType) :
    isMagneticSpin (flipSpin a) = isMagneticSpin a := by
  cases a <;> rfl

theorem symopMapsAtom_flip (positions : List Vec3) (spins : List SpinType)
    (tol : ℚ) (op : SymmetryOperation) (i : ℕ) :
    symopMapsAtom positions (spins.map flipSpin) tol op i =
      symopMapsAtom positions spins tol op i := by
  unfold symopMapsAtom
  refine list_any_congr fun j _ => ?_
  rw [getD_map_flip, getD_map_flip, oppositeSpins_flip]

theorem isMagneticSymop_flip (positions : List Vec3) (spins : List SpinType)
    (tol : ℚ) (op : SymmetryOperation) :
    isMagneticSymop positions (spins.map flipSpin) tol op =
      isMagneticSymop positions spins tol op := by
  unfold isMagneticSymop
  refine list_all_congr fun i _ => ?_
  rw [getD_map_flip, isMagneticSpin_flip, symopMapsAtom_flip]

theorem magnSymops_flip (symops : List SymmetryOperation) (positions : List Vec3)
    (spins : List SpinType) (tol : ℚ) :
    magnSymops symops positions (spins.map flipSpin) tol =
      magnSymops symops positions spins tol := by
  unfold magnSymops
  exact List.filter_congr fun op _ => isMagneticSymop_flip positions spins tol op

theorem symMarked_flip (ms : List SymmetryOperation) (positions : List Vec3)
    (spins : List SpinType) (tol : ℚ) (k : ℕ) :
    symMarked ms positions (spins.map flipSpin) tol k =
      symMarked ms positions spins tol k := by
  unfold symMarked
  refine list_any_congr fun i _ => list_any_congr fun j _ => ?_
  rw [getD_map_flip, getD_map_flip, oppositeSpins_flip]

theorem itMarked_flip (ms : List SymmetryOperation) (positions : List Vec3)
    (spins : List SpinType) (tol : ℚ) (k : ℕ) :
    itMarked ms positions (spins.map flipSpin) tol k =
      itMarked ms positions spins tol k := by
  unfold itMarked
  refine list_any_congr fun i _ => list_any_congr fun j _ => ?_
  rw [getD_map_flip, getD_map_flip, oppositeSpins_flip]

theorem sumSym_flip (ms : List SymmetryOperation) (positions : List Vec3)
    (spins : List SpinType) (tol : ℚ) :
    sumSym ms positions (spins.map flipSpin) tol = sumSym ms positions spins tol := by
  unfold sumSym
  exact List.countP_congr fun k _ => by rw [symMarked_flip]

theorem sumIT_flip (ms : List SymmetryOperation) (positions : List Vec3)
    (spins : List SpinType) (tol : ℚ) :
    sumIT ms positions (spins.map flipSpin) tol = sumIT ms positions spins tol := by
  unfold sumIT
  exact List.countP_congr fun k _ => by rw [itMarked_flip]

theorem flipSpin_injective : Function.Injective flipSpin := by
  intro a b h
  cases a <;> cases b <;> simp_all [flipSpin]

theorem count_up_map_flip (spins : List SpinType) :
    (spins.map flipSpin).count .UP = spins.count .DOWN := by
  have h := List.count_map_of_injective spins flipSpin flipSpin_injective .DOWN
  simpa [flipSpin] using h

theorem nMagneticAtoms_flip (spins : List SpinType)
    (hbal : spins.count .UP = spins.count .DOWN) :
    nMagneticAtoms (spins.map flipSpin) = nMagneticAtoms spins := by
  unfold nMagneticAtoms
  rw [count_up_map_flip, hbal]

/-- C10: for a balanced spin pattern (equal UP and DOWN counts), flipping
every spin (UP ↔ DOWN, NONE fixed) leaves the orbit classifier's outcome
unchanged, result or error alike. -/
theorem orbit_flip_invariant (symops : List SymmetryOperation)
    (positions : List Vec3) (spins : List SpinType) (tol : ℚ)
    (hbal : spins.count .UP = spins.count .DOWN) :
    check_altermagnetism_orbit symops positions (spins.map flipSpin) tol =
      check_altermagnetism_orbit symops positions spins tol := by
  unfold check_altermagnetism_orbit
  rw [List.length_map, magnSymops_flip]
  simp only [sumSym_flip, sumIT_flip, nMagneticAtoms_flip spins hbal]

/-- Witness for C10 at a balanced two-atom pattern. -/
theorem orbit_flip_invariant_witness :
    ([SpinType.UP, SpinType.DOWN].count SpinType.UP =
      [SpinType.UP, SpinType.DOWN].count SpinType.DOWN) ∧
    check_altermagnetism_orbit [] [vzero, vzero]
        ([SpinType.UP, SpinType.DOWN].map flipSpin) 1 =
      check_altermagnetism_orbit [] [vzero, vzero] [SpinType.UP, SpinType.DOWN] 1 :=
  ⟨by decide, orbit_flip_invariant [] [vzero, vzero]
    [SpinType.UP, SpinType.DOWN] 1 (by decide)⟩

/-! ## Structure classifier -/

theorem orbitPositionsOf_length (ea : List ℤ) (aps : List Vec3) (u : ℤ) :
    (orbitPositionsOf ea aps u).length = (atomIdsOf ea u).length := by
  simp [orbitPositionsOf]

theorem orbitSpinsOf_length (ea : List ℤ) (spins : List SpinType) (u : ℤ) :
    (orbitSpinsOf ea spins u).length = (atomIdsOf ea u).length := by
  simp [orbitSpinsOf]

theorem check_orbit_ok_of_length_eq (symops : List SymmetryOperation)
    (positions : List Vec3) (spins : List SpinType) (tol : ℚ)
    (h : positions.length = spins.length) :
    ∃ b, check_altermagnetism_orbit symops positions spins tol = .ok b := by
  unfold check_altermagnetism_orbit
  by_cases h1 : positions.length = 1
  · exact ⟨false, by rw [if_pos h1]⟩
  · rw [if_neg h1, if_neg (not_not_intro h)]
    by_cases hms : magnSymops symops positions spins tol = []
    · exact ⟨false, by rw [if_pos hms]⟩
    · exact ⟨_, by rw [if_neg hms]⟩

theorem orbitStep_imbalance (symops : List SymmetryOperation) (aps : List Vec3)
    (ea : List ℤ) (spins : List SpinType) (tol : ℚ) (st : LoopState) (u : ℤ)
    (hb : badOrbit ea spins u) :
    orbitStep symops aps ea spins tol st u =
      .error (.spinImbalance ((orbitSpinsOf ea spins u).count .UP)
        ((orbitSpinsOf ea spins u).count .DOWN)) := by
  obtain ⟨h2, hnn, hne⟩ := hb
  unfold orbitStep
  rw [if_neg (by rw [orbitPositionsOf_length]; omega), if_neg hnn, if_pos hne]

theorem orbitStep_ok_of_not_bad (symops : List SymmetryOperation) (aps : List Vec3)
    (ea : List ℤ) (spins : List SpinType) (tol : ℚ) (st : LoopState) (u : ℤ)
    (hb : ¬ badOrbit ea spins u) :
    ∃ st2, orbitStep symops aps ea spins tol st u = .ok st2 := by
  unfold orbitStep
  by_cases h1 : (orbitPositionsOf ea aps u).length = 1
  · exact ⟨_, by rw [if_pos h1]⟩
  · rw [if_neg h1]
    by_cases hnn : (orbitSpinsOf ea spins u).all (· == .NONE) = true
    · exact ⟨_, by rw [if_pos hnn]⟩
    · rw [if_neg hnn]
      have hlen2 : 2 ≤ (atomIdsOf ea u).length := by
        have hne0 : (orbitSpinsOf ea spins u).length ≠ 0 := by
          intro h0
          apply hnn
          rw [List.length_eq_zero] at h0
          rw [h0]
          rfl
        have e1 := orbitSpinsOf_length ea spins u
        have e2 := orbitPositionsOf_length ea aps u
        omega
      have hbal : (orbitSpinsOf ea spins u).count .UP =
          (orbitSpinsOf ea spins u).count .DOWN := by
        by_contra hne
        exact hb ⟨hlen2, hnn, hne⟩
      rw [if_neg (not_not_intro hbal)]
      obtain ⟨b, hok⟩ := check_orbit_ok_of_length_eq symops
        (orbitPositionsOf ea aps u) (orbitSpinsOf ea spins u) tol
        (by rw [orbitPositionsOf_length, orbitSpinsOf_length])
      exact ⟨_, by rw [hok]⟩

theorem foldl_imbalance (symops : List SymmetryOperation) (aps : List Vec3)
    (ea : List ℤ) (spins : List SpinType) (tol : ℚ) :
    ∀ (l : List ℤ) (st : LoopState) (u : ℤ), u ∈ l → badOrbit ea spins u →
      ∃ nu nd, l.foldlM (orbitStep symops aps ea spins tol) st =
        .error (.spinImbalance nu nd) ∧ nu ≠ nd
  | [], _, _, hu, _ => absurd hu (List.not_mem_nil _)
  | h :: t, st, u, hu, hb => by
    rw [List.foldlM_cons]
    by_cases hbh : badOrbit ea spins h
    · refine ⟨_, _, ?_, hbh.2.2⟩
      rw [orbitStep_imbalance symops aps ea spins tol st h hbh]
      rfl
    · obtain ⟨st2, hst2⟩ := orbitStep_ok_of_not_bad symops aps ea spins tol st h hbh
      rw [hst2]
      have hut : u ∈ t := by
        rcases List.mem_cons.mp hu with rfl | hmem
        · exact absurd hb hbh
        · exact hmem
      simpa using foldl_imbalance symops aps ea spins tol t st2 u hut hb

theorem atomIds_ne_nil_mem (ea : List ℤ) (u : ℤ) (h : atomIdsOf ea u ≠ []) :
    u ∈ ea := by
  obtain ⟨i, hi⟩ := List.exists_mem_of_ne_nil _ h
  rw [atomIdsOf] at hi
  obtain ⟨hir, hieq⟩ := List.mem_filter.mp hi
  rw [List.mem_range] at hir
  have heq : ea.getD i 0 = u := by simpa using hieq
  rw [List.getD_eq_getElem?_getD, List.getElem?_eq_getElem hir] at heq
  simp only [Option.getD_some] at heq
  rw [← heq]
  exact List.getElem_mem hir

theorem mem_uniqueOrbits (ea : List ℤ) (u : ℤ) (h : u ∈ ea) :
    u ∈ uniqueOrbits ea := by
  unfold uniqueOrbits
  rw [List.mem_dedup]
  exact ((List.perm_insertionSort (· ≤ ·) ea).mem_iff).mpr h

/-- C5: if any orbit has at least two members, a non-NONE spin, and unequal
UP/DOWN counts, the structure classifier fails with a spin-imbalance error
carrying the mismatched counts. -/
theorem structure_imbalance_error (symops : List SymmetryOperation)
    (aps : List Vec3) (ea : List ℤ) (cs : List String) (spins : List SpinType)
    (tol : ℚ) (u : ℤ) (hb : badOrbit ea spins u) :
    ∃ nu nd, is_altermagnet symops aps ea cs spins tol =
      .error (.spinImbalance nu nd) ∧ nu ≠ nd := by
  have hmem : u ∈ uniqueOrbits ea := by
    apply mem_uniqueOrbits
    apply atomIds_ne_nil_mem ea u
    intro hnil
    have h2 := hb.1
    rw [hnil] at h2
    simp at h2
  obtain ⟨nu, nd, hf, hne⟩ := foldl_imbalance symops aps ea spins tol
    (uniqueOrbits ea) ⟨false, false, true⟩ u hmem hb
  exact ⟨nu, nd, by unfold is_altermagnet; rw [hf], hne⟩

/-- Witness for C5: one orbit of two atoms both UP. -/
theorem structure_imbalance_error_witness :
    badOrbit [0, 0] [SpinType.UP, SpinType.UP] 0 ∧
    ∃ nu nd, is_altermagnet [] [vzero, vzero] [0, 0] []
      [SpinType.UP, SpinType.UP] 0 = .error (.spinImbalance nu nd) ∧ nu ≠ nd :=
  ⟨by decide, structure_imbalance_error [] [vzero, vzero] [0, 0] []
    [SpinType.UP, SpinType.UP] 0 0 (by decide)⟩

theorem orbitStep_skip (symops : List SymmetryOperation) (aps : List Vec3)
    (ea : List ℤ) (spins : List SpinType) (tol : ℚ) (st : LoopState) (u : ℤ)
    (h : (atomIdsOf ea u).length = 1 ∨
      (orbitSpinsOf ea spins u).all (· == .NONE) = true) :
    orbitStep symops aps ea spins tol st u =
      .ok ⟨st.altermagnet, st.checkPerformed,
        st.allMultOne && ((atomIdsOf ea u).length == 1)⟩ := by
  unfold orbitStep
  by_cases h1 : (orbitPositionsOf ea aps u).length = 1
  · rw [if_pos h1, orbitPositionsOf_length]
  · rw [if_neg h1]
    have h2 : (orbitSpinsOf ea spins u).all (· == .NONE) = true := by
      rcases h with h | h
      · exact absurd (by rw [orbitPositionsOf_length]; exact h) h1
      · exact h
    rw [if_pos h2, orbitPositionsOf_length]

theorem foldl_skip (symops : List SymmetryOperation) (aps : List Vec3)
    (ea : List ℤ) (spins : List SpinType) (tol : ℚ) :
    ∀ (l : List ℤ) (st : LoopState),
      (∀ u ∈ l, (atomIdsOf ea u).length = 1 ∨
        (orbitSpinsOf ea spins u).all (· == .NONE) = true) →
      l.foldlM (orbitStep symops aps ea spins tol) st =
        .ok ⟨st.altermagnet, st.checkPerformed,
          st.allMultOne && l.all (fun u => (atomIdsOf ea u).length == 1)⟩
  | [], st, _ => by
    simp [List.foldlM]
    rfl
  | u :: l, st, hall => by
    rw [List.foldlM_cons,
      orbitStep_skip symops aps ea spins tol st u (hall u (List.mem_cons_self u l))]
    have hrec := foldl_skip symops aps ea spins tol l
      ⟨st.altermagnet, st.checkPerformed,
        st.allMultOne && ((atomIdsOf ea u).length == 1)⟩
      (fun v hv => hall v (List.mem_cons_of_mem u hv))
    have hbind : ((Except.ok (⟨st.altermagnet, st.checkPerformed,
        st.allMultOne && ((atomIdsOf ea u).length == 1)⟩ : LoopState) :
          Except AmError LoopState) >>= fun s =>
        l.foldlM (orbitStep symops aps ea spins tol) s) =
        l.foldlM (orbitStep symops aps ea spins tol)
          ⟨st.altermagnet, st.checkPerformed,
            st.allMultOne && ((atomIdsOf ea u).length == 1)⟩ := rfl
    rw [hbind, hrec]
    simp [List.all_cons, Bool.and_assoc]

/-- C6: if every orbit is a singleton or consists only of NONE spins (so the
orbit classifier is never invoked), the structure classifier returns false
when all orbits are singletons and fails with the structural-inconsistency
error otherwise. -/
theorem structure_no_eval (symops : List SymmetryOperation) (aps : List Vec3)
    (ea : List ℤ) (cs : List String) (spins : List SpinType) (tol : ℚ)
    (hq : ∀ u ∈ uniqueOrbits ea, (atomIdsOf ea u).length = 1 ∨
      (orbitSpinsOf ea spins u).all (· == .NONE) = true) :
    ((∀ u ∈ uniqueOrbits ea, (atomIdsOf ea u).length = 1) →
      is_altermagnet symops aps ea cs spins tol = .ok false) ∧
    ((∃ u ∈ uniqueOrbits ea, (atomIdsOf ea u).length ≠ 1) →
      is_altermagnet symops aps ea cs spins tol =
        .error .inconsistentMagneticDescription) := by
  have hf := foldl_skip symops aps ea spins tol (uniqueOrbits ea)
    ⟨false, false, true⟩ hq
  constructor
  · intro hall
    have hA : (uniqueOrbits ea).all
        (fun u => (atomIdsOf ea u).length == 1) = true := by
      rw [List.all_eq_true]
      intro u hu
      simpa using hall u hu
    unfold is_altermagnet
    rw [hf]
    simp [hA]
  · rintro ⟨u, hu, hne⟩
    have hA : (uniqueOrbits ea).all
        (fun u => (atomIdsOf ea u).length == 1) = false := by
      rw [List.all_eq_false]
      exact ⟨u, hu, by simpa using hne⟩
    unfold is_altermagnet
    rw [hf]
    simp [hA]

/-- Witness for C6: two singleton orbits. -/
theorem structure_no_eval_witness :
    (∀ u ∈ uniqueOrbits [0, 1], (atomIdsOf [0, 1] u).length = 1 ∨
      (orbitSpinsOf [0, 1] [SpinType.UP, SpinType.DOWN] u).all
        (· == .NONE) = true) ∧
    ((∀ u ∈ uniqueOrbits [0, 1], (atomIdsOf [0, 1] u).length = 1) →
      is_altermagnet [] [vzero, vzero] [0, 1] [] [SpinType.UP, SpinType.DOWN] 0 =
        .ok false) ∧
    ((∃ u ∈ uniqueOrbits [0, 1], (atomIdsOf [0, 1] u).length ≠ 1) →
      is_altermagnet [] [vzero, vzero] [0, 1] [] [SpinType.UP, SpinType.DOWN] 0 =
        .error .inconsistentMagneticDescription) := by
  refine ⟨by decide, ?_⟩
  exact structure_no_eval [] [vzero, vzero] [0, 1] []
    [SpinType.UP, SpinType.DOWN] 0 (by decide)

/-! ## Search engine: work partition -/

theorem workerEnd_eq_start_succ (total nthreads t : ℕ) :
    workerEnd total nthreads t = workerStart total nthreads (t + 1) := by
  unfold workerStart workerEnd
  by_cases h : t < total % nthreads
  · rw [if_pos h]
    by_cases h2 : t + 1 < total % nthreads
    · rw [if_pos h2]
    · rw [if_neg h2, show total % nthreads = t + 1 by omega]
  · rw [if_neg h, if_neg (by omega)]

theorem workerStart_le_end (total nthreads t : ℕ) :
    workerStart total nthreads t ≤ workerEnd total nthreads t := by
  unfold workerStart workerEnd
  have hm : t * (total / nthreads) ≤ (t + 1) * (total / nthreads) :=
    Nat.mul_le_mul_right _ (Nat.le_succ t)
  by_cases h : t < total % nthreads
  · rw [if_pos h, if_pos h]; omega
  · rw [if_neg h, if_neg h]; omega

theorem workerStart_zero (total nthreads : ℕ) :
    workerStart total nthreads 0 = 0 := by
  unfold workerStart
  by_cases h : 0 < total % nthreads
  · rw [if_pos h]; omega
  · rw [if_neg h]; omega

theorem workerStart_top (total nthreads : ℕ) (h : 0 < nthreads) :
    workerStart total nthreads nthreads = total := by
  unfold workerStart
  have hr : total % nthreads < nthreads := Nat.mod_lt total h
  rw [if_neg (by omega)]
  exact Nat.div_add_mod total nthreads

theorem chain_le (s : ℕ → ℕ) (hmono : ∀ t, s t ≤ s (t + 1)) :
    ∀ a b : ℕ, a ≤ b → s a ≤ s b := by
  intro a b hab
  induction b, hab using Nat.le_induction with
  | base => exact le_refl _
  | succ n _ ih => exact ih.trans (hmono n)

theorem flatMap_range_ranges (s : ℕ → ℕ) (hmono : ∀ t, s t ≤ s (t + 1)) :
    ∀ n : ℕ, (List.range n).flatMap
        (fun t => List.range' (s t) (s (t + 1) - s t)) =
      List.range' (s 0) (s n - s 0)
  | 0 => by simp
  | n + 1 => by
    rw [List.range_succ, List.flatMap_append, flatMap_range_ranges s hmono n]
    simp only [List.flatMap_cons, List.flatMap_nil, List.append_nil]
    have h0n : s 0 ≤ s n := chain_le s hmono 0 n (Nat.zero_le n)
    have hnn : s n ≤ s (n + 1) := hmono n
    have key := List.range'_append (s 0) (s n - s 0) (s (n + 1) - s n) 1
    rw [one_mul, Nat.add_sub_cancel' h0n] at key
    rw [key]
    congr 1
    omega

theorem workerIds_eq_range' (total nthreads t : ℕ) :
    workerIds total nthreads t = List.range' (workerStart total nthreads t)
      (workerStart total nthreads (t + 1) - workerStart total nthreads t) := by
  rw [workerIds, workerEnd_eq_start_succ]

theorem workers_cover (total nthreads : ℕ) (h : 0 < nthreads) :
    (List.range nthreads).flatMap (fun t => workerIds total nthreads t) =
      List.range total := by
  have hmono : ∀ t, workerStart total nthreads t ≤
      workerStart total nthreads (t + 1) := by
    intro t
    rw [← workerEnd_eq_start_succ]
    exact workerStart_le_end total nthreads t
  calc (List.range nthreads).flatMap (fun t => workerIds total nthreads t)
      = (List.range nthreads).flatMap (fun t => List.range'
          (workerStart total nthreads t)
          (workerStart total nthreads (t + 1) - workerStart total nthreads t)) := by
        simp only [workerIds_eq_range']
    _ = List.range' (workerStart total nthreads 0)
          (workerStart total nthreads nthreads - workerStart total nthreads 0) :=
        flatMap_range_ranges _ hmono nthreads
    _ = List.range total := by
        rw [workerStart_zero, workerStart_top total nthreads h, Nat.sub_zero,
          List.range_eq_range']

theorem workerFold_foldl_fst (eval : ℕ → Except AmError Bool) :
    ∀ (ids : List ℕ) (acc : ℕ × List ℕ),
      (ids.foldl (workerFold eval) acc).1 = acc.1 + ids.length
  | [], _ => by simp
  | k :: t, acc => by
    rw [List.foldl_cons, workerFold_foldl_fst eval t (workerFold eval acc k)]
    have h1 : (workerFold eval acc k).1 = acc.1 + 1 := by
      unfold workerFold
      cases eval k with
      | error e => rfl
      | ok b => rfl
    rw [h1, List.length_cons]
    omega

theorem runWorker_count (eval : ℕ → Except AmError Bool) (ids : List ℕ) :
    (runWorker eval ids).1 = ids.length := by
  have h := workerFold_foldl_fst eval ids (0, [])
  simpa [runWorker] using h

theorem workerFold_mem (eval : ℕ → Except AmError Bool) (acc : ℕ × List ℕ)
    (k k2 : ℕ) (h : k2 ∈ (workerFold eval acc k).2) :
    k2 ∈ acc.2 ∨ (k2 = k ∧ eval k = .ok true) := by
  unfold workerFold at h
  cases heval : eval k with
  | error e => rw [heval] at h; exact Or.inl h
  | ok b =>
    rw [heval] at h
    cases b with
    | false => exact Or.inl (by simpa using h)
    | true =>
      have h2 : k2 ∈ acc.2 ∨ k2 = k := by simpa using h
      rcases h2 with hin | rfl
      · exact Or.inl hin
      · exact Or.inr ⟨rfl, rfl⟩

theorem workerFold_foldl_results (eval : ℕ → Except AmError Bool) :
    ∀ (ids : List ℕ) (acc : ℕ × List ℕ),
      (∀ k ∈ acc.2, eval k = .ok true) →
      ∀ k2 ∈ (ids.foldl (workerFold eval) acc).2, eval k2 = .ok true
  | [], _, hacc => by simpa using hacc
  | k :: t, acc, hacc => by
    rw [List.foldl_cons]
    apply workerFold_foldl_results eval t
    intro k2 hk2
    rcases workerFold_mem eval acc k k2 hk2 with hin | ⟨rfl, hok⟩
    · exact hacc k2 hin
    · exact hok

theorem runWorker_results (eval : ℕ → Except AmError Bool) (ids : List ℕ) :
    ∀ k ∈ (runWorker eval ids).2, eval k = .ok true := by
  unfold runWorker
  exact workerFold_foldl_results eval ids (0, []) (by simp)

/-- C7: for `m ≥ 1` magnetic atoms and any positive worker count, the
per-worker ranges are contiguous and partition `[0, 2^m)` exactly (their
concatenation is the full id range, so no duplicate and no omission), the
per-worker evaluated counts sum to `2^m` regardless of evaluation outcomes,
and only candidates whose evaluation returns `ok true` ever appear in a
worker's result list — erroring candidates are discarded yet still counted. -/
theorem search_partition_complete (m nthreads : ℕ)
    (hm : 1 ≤ m) (hth : 1 ≤ nthreads)
    (symops : List SymmetryOperation) (aps : List Vec3) (ea : List ℤ)
    (cs : List String) (na : ℕ) (mi : List ℕ) (tol : ℚ) :
    ((List.range nthreads).flatMap (fun t => workerIds (2 ^ m) nthreads t) =
      List.range (2 ^ m)) ∧
    (∀ t : ℕ, workerEnd (2 ^ m) nthreads t =
      workerStart (2 ^ m) nthreads (t + 1)) ∧
    (((List.range nthreads).map (fun t =>
        (runWorker (evalCandidate symops aps ea cs na mi tol)
          (workerIds (2 ^ m) nthreads t)).1)).sum = 2 ^ m) ∧
    (∀ t : ℕ, ∀ k ∈ (runWorker (evalCandidate symops aps ea cs na mi tol)
        (workerIds (2 ^ m) nthreads t)).2,
      evalCandidate symops aps ea cs na mi tol k = .ok true) := by
  have hcover := workers_cover (2 ^ m) nthreads hth
  refine ⟨hcover, fun t => workerEnd_eq_start_succ _ _ _, ?_,
    fun t => runWorker_results _ _⟩
  have hlen := congrArg List.length hcover
  rw [List.length_flatMap, List.length_range] at hlen
  rw [show (List.range nthreads).map (fun t =>
      (runWorker (evalCandidate symops aps ea cs na mi tol)
        (workerIds (2 ^ m) nthreads t)).1) =
      (List.range nthreads).map
        (List.length ∘ fun t => workerIds (2 ^ m) nthreads t) from
    List.map_congr_left fun t _ => runWorker_count _ _]
  exact hlen

/-- Witness for C7 with one magnetic atom, two workers and empty structure
data. -/
theorem search_partition_complete_witness :
    (1 ≤ 1) ∧ (1 ≤ 2) ∧
    (((List.range 2).flatMap (fun t => workerIds (2 ^ 1) 2 t) =
        List.range (2 ^ 1)) ∧
      (∀ t : ℕ, workerEnd (2 ^ 1) 2 t = workerStart (2 ^ 1) 2 (t + 1)) ∧
      (((List.range 2).map (fun t =>
          (runWorker (evalCandidate [] [] [] [] 0 [] 0)
            (workerIds (2 ^ 1) 2 t)).1)).sum = 2 ^ 1) ∧
      (∀ t : ℕ, ∀ k ∈ (runWorker (evalCandidate [] [] [] [] 0 [] 0)
          (workerIds (2 ^ 1) 2 t)).2,
        evalCandidate [] [] [] [] 0 [] 0 k = .ok true)) :=
  ⟨by decide, by decide,
    search_partition_complete 1 2 (by decide) (by decide) [] [] [] [] 0 [] 0⟩

/-! ## Search engine: candidate decoding -/

theorem decodeSpinsAux_getD_not_mem :
    ∀ (l : List ℕ) (tempId : ℕ) (spins : List SpinType) (j : ℕ), j ∉ l →
      (decodeSpinsAux tempId l spins).getD j .NONE = spins.getD j .NONE
  | [], _, _, _, _ => rfl
  | idx :: rest, tempId, spins, j, hj => by
    simp only [decodeSpinsAux]
    rw [decodeSpinsAux_getD_not_mem rest (tempId / 2) _ j
      (fun h => hj (List.mem_cons_of_mem idx h))]
    have hne : idx ≠ j := fun h => hj (h ▸ List.mem_cons_self idx rest)
    rw [List.getD_eq_getElem?_getD, List.getD_eq_getElem?_getD,
      List.getElem?_set_ne hne]

theorem decodeSpinsAux_getD_at :
    ∀ (l : List ℕ) (tempId : ℕ) (spins : List SpinType) (i : ℕ)
      (hi : i < l.length), l.Nodup → l.get ⟨i, hi⟩ < spins.length →
      (decodeSpinsAux tempId l spins).getD (l.get ⟨i, hi⟩) .NONE =
        (if tempId / 2 ^ i % 2 = 0 then SpinType.UP else SpinType.DOWN)
  | [], _, _, i, hi, _, _ => absurd hi (by simp)
  | idx :: rest, tempId, spins, 0, hi, hnd, hlt => by
    have hget : (idx :: rest).get ⟨0, hi⟩ = idx := rfl
    rw [hget] at hlt ⊢
    simp only [decodeSpinsAux]
    have hidx : idx ∉ rest := (List.nodup_cons.mp hnd).1
    rw [decodeSpinsAux_getD_not_mem rest (tempId / 2) _ idx hidx,
      List.getD_eq_getElem?_getD, List.getElem?_set_self hlt]
    simp
  | idx :: rest, tempId, spins, i + 1, hi, hnd, hlt => by
    have hget : (idx :: rest).get ⟨i + 1, hi⟩ =
        rest.get ⟨i, Nat.lt_of_succ_lt_succ hi⟩ := List.get_cons_succ
    rw [hget] at hlt ⊢
    simp only [decodeSpinsAux]
    rw [decodeSpinsAux_getD_at rest (tempId / 2) _ i
      (Nat.lt_of_succ_lt_succ hi) (List.nodup_cons.mp hnd).2
      (by rw [List.length_set]; exact hlt)]
    rw [Nat.div_div_eq_div_mul, show 2 * 2 ^ i = 2 ^ (i + 1) from (pow_succ' 2 i).symm]

/-- C8: decoding candidate id `k` assigns the `i`-th magnetic atom (in order
of the magnetic-index list) UP when bit `i` of `k` is 0 and DOWN when it is
1, leaves every atom outside the magnetic-index list at NONE, and in
particular candidate 0 sets every magnetic atom UP. -/
theorem decode_bits (na : ℕ) (mi : List ℕ) (k : ℕ)
    (hnd : mi.Nodup) (hb : ∀ j ∈ mi, j < na) :
    (∀ i : ℕ, ∀ hi : i < mi.length,
      (decodeSpins na mi k).getD (mi.get ⟨i, hi⟩) .NONE =
        if k / 2 ^ i % 2 = 0 then SpinType.UP else SpinType.DOWN) ∧
    (∀ j : ℕ, j ∉ mi → (decodeSpins na mi k).getD j .NONE = SpinType.NONE) ∧
    (k = 0 → ∀ i : ℕ, ∀ hi : i < mi.length,
      (decodeSpins na mi k).getD (mi.get ⟨i, hi⟩) .NONE = SpinType.UP) := by
  have hmain : ∀ i : ℕ, ∀ hi : i < mi.length,
      (decodeSpins na mi k).getD (mi.get ⟨i, hi⟩) .NONE =
        if k / 2 ^ i % 2 = 0 then SpinType.UP else SpinType.DOWN := by
    intro i hi
    apply decodeSpinsAux_getD_at mi k _ i hi hnd
    rw [List.length_replicate]
    exact hb _ (List.get_mem mi i hi)
  refine ⟨hmain, ?_, ?_⟩
  · intro j hj
    unfold decodeSpins
    rw [decodeSpinsAux_getD_not_mem mi k _ j hj,
      List.getD_eq_getElem?_getD, List.getElem?_replicate]
    split <;> rfl
  · intro hk i hi
    rw [hmain i hi, hk]
    simp

/-- Witness for C8 with three atoms, magnetic indices `[0, 2]` and candidate
id `k = 1`. -/
theorem decode_bits_witness :
    ([0, 2] : List ℕ).Nodup ∧ (∀ j ∈ ([0, 2] : List ℕ), j < 3) ∧
    ((∀ i : ℕ, ∀ hi : i < ([0, 2] : List ℕ).length,
        (decodeSpins 3 [0, 2] 1).getD (([0, 2] : List ℕ).get ⟨i, hi⟩) .NONE =
          if 1 / 2 ^ i % 2 = 0 then SpinType.UP else SpinType.DOWN) ∧
      (∀ j : ℕ, j ∉ ([0, 2] : List ℕ) →
        (decodeSpins 3 [0, 2] 1).getD j .NONE = SpinType.NONE) ∧
      ((1 : ℕ) = 0 → ∀ i : ℕ, ∀ hi : i < ([0, 2] : List ℕ).length,
        (decodeSpins 3 [0, 2] 1).getD (([0, 2] : List ℕ).get ⟨i, hi⟩) .NONE =
          SpinType.UP)) :=
  ⟨by decide, by decide, decode_bits 3 [0, 2] 1 (by decide) (by decide)⟩

end amcheck
